import Mathlib

/-!
# EBNF grammar compiler and match engine: a shallow embedding

This file embeds the hand-written `EBNFParser` class (grammar compiler and
recursive-descent match engine) as executable Lean definitions over
`List Char`, and proves the specification claims about it.

Strings are modelled as `List Char` (one entry per code point).  The match
engine's unbounded recursion (rule references resolved at match time, greedy
repetition loops) is modelled with an explicit fuel argument; the
distinguished `diverge` outcome marks fuel exhaustion, and non-termination of
the source is expressed as exhaustion at every finite fuel budget.  All fueled
functions are structurally recursive on the fuel so that concrete runs reduce
definitionally.
-/

namespace EBNF

/-- Characters JavaScript's `\s` class (and `String.prototype.trim`) treat as
whitespace, restricted to the ones that can actually occur here. -/
def isJsSpace (c : Char) : Bool :=
  c = ' ' || c = '\t' || c = '\n' || c = '\r' || c = '\x0b' || c = '\x0c' ||
  c = Char.ofNat 0xa0 || c = Char.ofNat 0x2028 || c = Char.ofNat 0x2029 ||
  c = Char.ofNat 0xfeff

/-- Line terminators, which JavaScript's `.` in a regular expression never
matches. -/
def isLineTerm (c : Char) : Bool :=
  c = '\n' || c = '\r' || c = Char.ofNat 0x2028 || c = Char.ofNat 0x2029

/-- ASCII decimal digit, the `\d` class. -/
def isDigitChar (c : Char) : Bool :=
  '0' ≤ c && c ≤ '9'

/-- First character of an identifier: `[a-zA-Z_]`. -/
def isIdentStart (c : Char) : Bool :=
  ('a' ≤ c && c ≤ 'z') || ('A' ≤ c && c ≤ 'Z') || c = '_'

/-- Later character of an identifier: `[a-zA-Z0-9_]`. -/
def isIdentChar (c : Char) : Bool :=
  isIdentStart c || isDigitChar c

/-- `text.trim()`: strip leading and trailing whitespace. -/
def trimList (l : List Char) : List Char :=
  ((l.dropWhile isJsSpace).reverse.dropWhile isJsSpace).reverse

/-- `input.slice(a, b)` for `0 ≤ a` and `0 ≤ b`: the half-open span `[a, b)`,
clamped to the string. -/
def sliceList (l : List Char) (a b : Nat) : List Char :=
  (l.take b).drop a

/-- The compiled grammar graph: one tagged variant per construct, exactly the
object shapes built by `parseElement`/`parseAlternation`/`parseConcatenation`.
`max := none` models the JavaScript `Infinity` bound. -/
inductive Expression where
  | alternation (alternatives : List Expression)
  | concatenation (elements : List Expression)
  | repetition (min : Nat) (max : Option Nat) (element : Expression)
  | optional (element : Expression)
  | terminal (value : List Char)
  | character_range (first last : Char)
  | non_terminal (name : String)
  | empty

/-- A node of the concrete-syntax tree produced by matching.  `endPos` stands
for the source's `end` field, which is a reserved word in Lean. -/
inductive ParseNode where
  | mk (type : String) (value : List Char) (start : Nat) (endPos : Nat)
      (children : List ParseNode)

def ParseNode.type : ParseNode → String
  | .mk t _ _ _ _ => t

def ParseNode.value : ParseNode → List Char
  | .mk _ v _ _ _ => v

def ParseNode.start : ParseNode → Nat
  | .mk _ _ s _ _ => s

def ParseNode.endPos : ParseNode → Nat
  | .mk _ _ _ e _ => e

def ParseNode.children : ParseNode → List ParseNode
  | .mk _ _ _ _ cs => cs

/-- The object a successful `parseExpression` call returns: a position, an
optional `node` field and an optional `children` field (absence of a field in
the JavaScript object is `none`). -/
structure MatchResult where
  position : Nat
  node : Option ParseNode
  children : Option (List ParseNode)

/-- Outcome of a match-engine call: fuel exhaustion (`diverge`), a thrown
unknown-rule exception (`err`), the local `null` failure (`fail`), or a
successful result object. -/
inductive MatchOutcome where
  | diverge
  | err (name : String)
  | fail
  | ok (r : MatchResult)

/-- The rule map, insertion-ordered as a JavaScript `Map`. -/
abbrev RuleMap := List (String × Expression)

/-- `this.rules.get(name)` / `this.rules.has(name)`. -/
def lookupRule (rules : RuleMap) (name : String) : Option Expression :=
  match rules with
  | [] => none
  | (k, v) :: rest => if k = name then some v else lookupRule rest name

/-- `this.rules.set(name, e)`: replace in place if the key exists (keeping its
insertion position), else append. -/
def mapSet (rules : RuleMap) (name : String) (e : Expression) : RuleMap :=
  if rules.any (fun p => p.1 = name) then
    rules.map (fun p => if p.1 = name then (name, e) else p)
  else
    rules ++ [(name, e)]

/-- The nodes a result object contributes to an enclosing `children` array:
`if (result.node) push(result.node); if (result.children) push(...)`. -/
def resultNodes (r : MatchResult) : List ParseNode :=
  r.node.toList ++ r.children.getD []

/-- `count < expression.max` where `max` may be `Infinity`. -/
def countLtMax (count : Nat) (max : Option Nat) : Bool :=
  match max with
  | none => true
  | some m => count < m

/-- One pending match-engine call: a `parseRule` call, a `parseExpression`
call, or one of `parseExpression`'s three internal loops (the alternation
scan, the concatenation scan with its accumulated children, the repetition
loop with its accumulated children and iteration count). -/
inductive MTask where
  | rule (name : String)
  | expr (e : Expression)
  | alts (alts : List Expression)
  | seq (elems : List Expression) (acc : List ParseNode)
  | reps (mn : Nat) (mx : Option Nat) (el : Expression)
      (acc : List ParseNode) (count : Nat)

/-- The match engine.  `run` executes one pending call, spending one unit of
fuel per call (including each loop iteration), by structural recursion on the
fuel:
* `rule`: `parseRule` — throw for an unknown rule, else match the rule's
  expression and wrap a success in a rule-tagged node whose children are
  `result.children || []` (the sub-result's own `node` is discarded);
  the success is the source's `{node, position}` object.
* `expr`: `parseExpression` — the case switch of the match engine.
* `alts`: try each alternative at the same position, commit to the first
  success; an exception escapes immediately.
* `seq`: thread the position through the elements, accumulating produced
  nodes; any element failure fails the whole call.
* `reps`: `while (count < max)` match the element, accumulate and advance; on
  the first sub-failure stop and succeed iff `count ≥ min`. -/
def run (rules : RuleMap) : Nat → List Char → Nat → MTask → MatchOutcome
  | 0, _, _, _ => .diverge
  | Nat.succ f, input, position, t =>
    match t with
    | .rule name =>
      match lookupRule rules name with
      | none => .err name
      | some rule =>
        match run rules f input position (.expr rule) with
        | .diverge => .diverge
        | .err n => .err n
        | .fail => .fail
        | .ok r =>
          .ok ⟨r.position,
               some (.mk name (sliceList input position r.position) position
                 r.position (r.children.getD [])), none⟩
    | .expr e =>
      match e with
      | .alternation as => run rules f input position (.alts as)
      | .concatenation es => run rules f input position (.seq es [])
      | .repetition mn mx el =>
        run rules f input position (.reps mn mx el [] 0)
      | .optional el =>
        match run rules f input position (.expr el) with
        | .fail => .ok ⟨position, none, some []⟩
        | o => o
      | .terminal v =>
        if sliceList input position (position + v.length) = v then
          .ok ⟨position + v.length,
               some (.mk "terminal" v position (position + v.length) []),
               none⟩
        else .fail
      | .character_range lo hi =>
        match input.get? position with
        | some c =>
          if lo ≤ c ∧ c ≤ hi then
            .ok ⟨position + 1,
                 some (.mk "character" [c] position (position + 1) []), none⟩
          else .fail
        | none => .fail
      | .non_terminal name => run rules f input position (.rule name)
      | .empty => .ok ⟨position, none, some []⟩
    | .alts as =>
      match as with
      | [] => .fail
      | a :: rest =>
        match run rules f input position (.expr a) with
        | .fail => run rules f input position (.alts rest)
        | o => o
    | .seq elems acc =>
      match elems with
      | [] => .ok ⟨position, none, some acc⟩
      | el :: rest =>
        match run rules f input position (.expr el) with
        | .diverge => .diverge
        | .err n => .err n
        | .fail => .fail
        | .ok r =>
          run rules f input r.position (.seq rest (acc ++ resultNodes r))
    | .reps mn mx el acc count =>
      if countLtMax count mx then
        match run rules f input position (.expr el) with
        | .diverge => .diverge
        | .err n => .err n
        | .fail =>
          if count < mn then .fail else .ok ⟨position, none, some acc⟩
        | .ok r =>
          run rules f input r.position
            (.reps mn mx el (acc ++ resultNodes r) (count + 1))
      else
        if count < mn then .fail else .ok ⟨position, none, some acc⟩

/-- `parseRule(input, position, ruleName)`. -/
def parseRule (rules : RuleMap) (fuel : Nat) (input : List Char)
    (position : Nat) (ruleName : String) : MatchOutcome :=
  run rules fuel input position (.rule ruleName)

/-- `parseExpression(input, position, expression)`. -/
def parseExpression (rules : RuleMap) (fuel : Nat) (input : List Char)
    (position : Nat) (e : Expression) : MatchOutcome :=
  run rules fuel input position (.expr e)

/-- Search a list for the first `*)`, returning how many characters are
consumed up to and including it; fail at a line terminator first, which the
`.` of the non-greedy `.*?` cannot cross. -/
def findStarClose : List Char → Option Nat
  | '*' :: ')' :: _ => some 2
  | c :: rest => if isLineTerm c then none else (findStarClose rest).map (· + 1)
  | [] => none

/-- The scan of `line.replace(/\(\*.*?\*\)/g, '')`: remove every shortest
`(* ... *)` span; an unclosed `(*` is left in place and scanning resumes after
it.  Each step consumes at least one character, so fuel `|l|` (supplied by
`stripParenStar`) is never exhausted; the sentinel returns the rest
unchanged. -/
def spsScan : Nat → List Char → List Char
  | 0, l => l
  | Nat.succ f, l =>
    match l with
    | [] => []
    | '(' :: '*' :: rest =>
      (match findStarClose rest with
       | some n => spsScan f (rest.drop n)
       | none => '(' :: '*' :: spsScan f rest)
    | c :: rest => c :: spsScan f rest

/-- `line.replace(/\(\*.*?\*\)/g, '')`. -/
def stripParenStar (l : List Char) : List Char :=
  spsScan l.length l

/-- No line terminator anywhere: the condition for `.*$` to reach the end of
the string. -/
def noLineTerm (l : List Char) : Bool :=
  l.all (fun c => !isLineTerm c)

/-- The scan of `line.replace(/\/\/.*$/, '')`: truncate at the first `//`
whose tail is free of line terminators.  Fuel as in `spsScan`. -/
def sslScan : Nat → List Char → List Char
  | 0, l => l
  | Nat.succ f, l =>
    match l with
    | [] => []
    | '/' :: '/' :: rest =>
      if noLineTerm rest then [] else '/' :: sslScan f ('/' :: rest)
    | c :: rest => c :: sslScan f rest

/-- `line.replace(/\/\/.*$/, '')`. -/
def stripSlashes (l : List Char) : List Char :=
  sslScan l.length l

/-- `line.replace(/#.*$/, '')`: truncate at the first `#` whose tail is free
of line terminators. -/
def stripHash : List Char → List Char
  | [] => []
  | '#' :: rest => if noLineTerm rest then [] else '#' :: stripHash rest
  | c :: rest => c :: stripHash rest

/-- `text.split('\n')`. -/
def splitLines : List Char → List (List Char)
  | [] => [[]]
  | '\n' :: rest => [] :: splitLines rest
  | c :: rest =>
    match splitLines rest with
    | l :: ls => (c :: l) :: ls
    | [] => [[c]]

/-- Strip one assignment operator, `::=`, `:=` or `→`, from the front. -/
def opStrip (l : List Char) : Option (List Char) :=
  match l with
  | ':' :: ':' :: '=' :: rest => some rest
  | ':' :: '=' :: rest => some rest
  | c :: rest => if c = Char.ofNat 0x2192 then some rest else none
  | [] => none

/-- Match a (comment-stripped, trimmed) line against
`^([a-zA-Z_][a-zA-Z0-9_]*)\s*(::?=|→)\s*(.+)$`, returning the rule name and
the definition text. -/
def matchRuleLine (line : List Char) : Option (String × List Char) :=
  match line.head? with
  | none => none
  | some c =>
    if isIdentStart c then
      let name := line.takeWhile isIdentChar
      let rest := (line.drop name.length).dropWhile isJsSpace
      match opStrip rest with
      | none => none
      | some rest2 =>
        let defn := rest2.dropWhile isJsSpace
        if defn ≠ [] ∧ noLineTerm defn then some (⟨name⟩, defn) else none
    else none

/-- The loop of `splitRespectingGroups(text, delimiter)`: split at the
delimiter only at group depth zero and outside quotes. -/
def srgLoop (delim : Char) : List Char → List Char → Int → Bool →
    Option Char → List (List Char) → List (List Char)
  | [], current, _, _, _, parts =>
    if trimList current ≠ [] then parts ++ [trimList current] else parts
  | c :: cs, current, depth, inQuotes, quoteChar, parts =>
    if !inQuotes && (c = '"' || c = '\'') then
      srgLoop delim cs (current ++ [c]) depth true (some c) parts
    else if inQuotes && some c = quoteChar then
      srgLoop delim cs (current ++ [c]) depth false none parts
    else if inQuotes then
      srgLoop delim cs (current ++ [c]) depth inQuotes quoteChar parts
    else if c = '(' || c = '[' || c = '\x7b' then
      srgLoop delim cs (current ++ [c]) (depth + 1) inQuotes quoteChar parts
    else if c = ')' || c = ']' || c = '\x7d' then
      srgLoop delim cs (current ++ [c]) (depth - 1) inQuotes quoteChar parts
    else if c = delim && depth = 0 then
      srgLoop delim cs [] depth inQuotes quoteChar (parts ++ [trimList current])
    else
      srgLoop delim cs (current ++ [c]) depth inQuotes quoteChar parts

/-- `splitRespectingGroups(text, delimiter)`. -/
def splitRespectingGroups (text : List Char) (delim : Char) :
    List (List Char) :=
  srgLoop delim text [] 0 false none []

/-- The loop of `tokenize(text)`: whitespace-separated tokens, with quoted
and bracket-grouped spans kept whole. -/
def tokLoop : List Char → List (List Char) → List Char → Bool →
    Option Char → Int → List (List Char)
  | [], tokens, current, _, _, _ =>
    if trimList current ≠ [] then tokens ++ [trimList current] else tokens
  | c :: cs, tokens, current, inQuotes, quoteChar, depth =>
    if !inQuotes && (c = '"' || c = '\'') then
      let tokens' :=
        if trimList current ≠ [] then tokens ++ [trimList current] else tokens
      tokLoop cs tokens' [c] true (some c) depth
    else if inQuotes && some c = quoteChar then
      tokLoop cs (tokens ++ [current ++ [c]]) [] false none depth
    else if inQuotes then
      tokLoop cs tokens (current ++ [c]) inQuotes quoteChar depth
    else if c = '(' || c = '[' || c = '\x7b' then
      if trimList current ≠ [] && depth = 0 then
        tokLoop cs (tokens ++ [trimList current]) [c] inQuotes quoteChar
          (depth + 1)
      else
        tokLoop cs tokens (current ++ [c]) inQuotes quoteChar (depth + 1)
    else if c = ')' || c = ']' || c = '\x7d' then
      if depth - 1 = 0 then
        tokLoop cs (tokens ++ [current ++ [c]]) [] inQuotes quoteChar
          (depth - 1)
      else
        tokLoop cs tokens (current ++ [c]) inQuotes quoteChar (depth - 1)
    else if depth > 0 then
      tokLoop cs tokens (current ++ [c]) inQuotes quoteChar depth
    else if isJsSpace c then
      if trimList current ≠ [] then
        tokLoop cs (tokens ++ [trimList current]) [] inQuotes quoteChar depth
      else
        tokLoop cs tokens current inQuotes quoteChar depth
    else
      tokLoop cs tokens (current ++ [c]) inQuotes quoteChar depth

/-- `tokenize(text)`. -/
def tokenize (text : List Char) : List (List Char) :=
  tokLoop text [] [] false none 0

/-- Match `(\d*),?(\d*)` against an entire string: leading digits, at most one
comma, trailing digits.  Returns the two captured digit groups. -/
def braceBody (s : List Char) : Option (List Char × List Char) :=
  let d := s.takeWhile isDigitChar
  match s.drop d.length with
  | [] => some (d, [])
  | ',' :: b => if b.all isDigitChar then some (d, b) else none
  | _ => none

/-- Split a list at its last `{`, returning the parts before and after it. -/
def lastBraceSplit : List Char → Option (List Char × List Char)
  | [] => none
  | c :: rest =>
    match lastBraceSplit rest with
    | some (e, s) => some (c :: e, s)
    | none => if c = '\x7b' then some ([], rest) else none

/-- Match an element against `^(.+)\{(\d*),?(\d*)\}$`.  Only the last `{` can
begin a valid bounds suffix (the bounds groups cannot contain a brace), the
leading group must be non-empty, and `.` never matches a line terminator.
Returns the element text and the two captured bounds. -/
def repetitionNumMatch (text : List Char) :
    Option (List Char × List Char × List Char) :=
  if text.getLast? = some '\x7d' then
    match lastBraceSplit text.dropLast with
    | some (e, s) =>
      if e ≠ [] ∧ noLineTerm e then
        match braceBody s with
        | some (d, b) => some (e, d, b)
        | none => none
      else none
    | none => none
  else none

/-- `parseInt` on a string of decimal digits. -/
def parseNatDigits (l : List Char) : Nat :=
  l.foldl (fun acc c => acc * 10 + (c.toNat - '0'.toNat)) 0

/-- Which of the compiler's three mutually recursive passes to run. -/
inductive CompileMode where
  | alt
  | cat
  | elem

/-- The definition compiler, one unit of fuel per recursive call, by
structural recursion on the fuel:
* `alt`: `parseAlternation(text)` — split on top-level `|`; a single
  candidate collapses to its bare expression.
* `cat`: `parseConcatenation(text)` — tokenize; a single token collapses to
  its bare expression.
* `elem`: `parseElement(text)` — trailing quantifiers, numeric bounds, the
  three grouping brackets, quoted terminals, 3-character ranges, the empty
  words, bare identifiers, and the permissive terminal fallback — in the
  source's order.
The source recursion always terminates (each `elem` step strictly shortens
its text), so fuel `4 * |text| + 4` is never exhausted and the sentinel
fallback is unreachable from `parseRuleDefinition`. -/
def compileText : Nat → CompileMode → List Char → Expression
  | 0, _, text => .terminal text
  | Nat.succ f, mode, text =>
    match mode with
    | .alt =>
      match splitRespectingGroups text '|' with
      | [alt] => compileText f .cat alt
      | alternatives => .alternation (alternatives.map (compileText f .cat))
    | .cat =>
      match tokenize text with
      | [elem] => compileText f .elem elem
      | elements => .concatenation (elements.map (compileText f .elem))
    | .elem =>
      let t := trimList text
      if t.getLast? = some '*' then
        .repetition 0 none (compileText f .elem t.dropLast)
      else if t.getLast? = some '+' then
        .repetition 1 none (compileText f .elem t.dropLast)
      else if t.getLast? = some '?' then
        .optional (compileText f .elem t.dropLast)
      else
        match repetitionNumMatch t with
        | some (element, mnS, mxS) =>
          .repetition (if mnS ≠ [] then parseNatDigits mnS else 0)
            (if mxS ≠ [] then some (parseNatDigits mxS)
             else if mnS ≠ [] then some (parseNatDigits mnS) else none)
            (compileText f .elem element)
        | none =>
          if t.head? = some '(' ∧ t.getLast? = some ')' then
            compileText f .alt (t.drop 1).dropLast
          else if t.head? = some '[' ∧ t.getLast? = some ']' then
            .optional (compileText f .alt (t.drop 1).dropLast)
          else if t.head? = some '\x7b' ∧ t.getLast? = some '\x7d' then
            .repetition 0 none (compileText f .alt (t.drop 1).dropLast)
          else if (t.head? = some '"' ∧ t.getLast? = some '"') ∨
              (t.head? = some '\'' ∧ t.getLast? = some '\'') then
            .terminal (t.drop 1).dropLast
          else if t.contains '-' ∧ t.length = 3 then
            .character_range (t.getD 0 ' ') (t.getD 2 ' ')
          else if t = "empty".toList ∨ t = "ε".toList ∨
              t = "epsilon".toList then
            .empty
          else if t.head?.elim false isIdentStart ∧ t.all isIdentChar then
            .non_terminal ⟨t⟩
          else
            .terminal t

/-- `parseAlternation(text)`. -/
def parseAlternation (fuel : Nat) (text : List Char) : Expression :=
  compileText fuel .alt text

/-- `parseConcatenation(text)`. -/
def parseConcatenation (fuel : Nat) (text : List Char) : Expression :=
  compileText fuel .cat text

/-- `parseElement(text)`. -/
def parseElement (fuel : Nat) (text : List Char) : Expression :=
  compileText fuel .elem text

/-- `parseRuleDefinition(definition)`, with ample fuel (see `compileText`). -/
def parseRuleDefinition (defn : List Char) : Expression :=
  parseAlternation (4 * defn.length + 4) defn

/-- One line of the compiler's preprocessing: strip `(* *)`, `//` and `#`
comments, then trim. -/
def processLine (line : List Char) : List Char :=
  trimList (stripHash (stripSlashes (stripParenStar line)))

/-- The non-blank comment-stripped lines the rule loop iterates over. -/
def processedLines (text : List Char) : List (List Char) :=
  ((splitLines text).map processLine).filter (fun l => l ≠ [])

/-- A compiled grammar: the insertion-ordered rule map and the default start
rule (the first rule name registered). -/
structure Grammar where
  rules : RuleMap
  startRule : String

/-- The rule-registration loop of `parseGrammar`: register each matching
line, fixing the start rule at the first one. -/
def parseGrammarLines : List (List Char) → RuleMap → Option String →
    RuleMap × Option String
  | [], rules, start => (rules, start)
  | line :: rest, rules, start =>
    match matchRuleLine line with
    | some (name, defn) =>
      parseGrammarLines rest (mapSet rules name (parseRuleDefinition defn))
        (match start with | none => some name | some s => some s)
    | none => parseGrammarLines rest rules start

/-- `parseGrammar()`: compile the grammar text, failing when no rule was
registered.  (A non-empty rule map always carries a start name, so the
`getD` default is never consulted.) -/
def parseGrammar (text : List Char) : Except String Grammar :=
  match parseGrammarLines (processedLines text) [] none with
  | (rule :: rules, start) => .ok ⟨rule :: rules, start.getD rule.1⟩
  | ([], _) => .error "No valid grammar rules found"

/-- The outcome of a top-level `parse(input)` call. -/
inductive ParseOutcome where
  | diverge
  | unknownRule (name : String)
  | parseFailedAtStart
  | incompleteParse (remaining : List Char) (offset : Nat)
  | success (node : ParseNode)

/-- `parse(input)`: run the start rule at offset 0; a success that stops
short of the input's end is reported as an incomplete parse carrying the
unconsumed suffix and its offset. -/
def parse (g : Grammar) (fuel : Nat) (input : List Char) : ParseOutcome :=
  match run g.rules fuel input 0 (.rule g.startRule) with
  | .diverge => .diverge
  | .err n => .unknownRule n
  | .fail => .parseFailedAtStart
  | .ok r =>
    if r.position < input.length then
      .incompleteParse (input.drop r.position) r.position
    else
      match r.node with
      | some node => .success node
      | none => .parseFailedAtStart

/-- Non-termination of a top-level parse: every finite fuel budget is
exhausted. -/
def MatchDiverges (g : Grammar) (input : List Char) : Prop :=
  ∀ fuel, parse g fuel input = .diverge

/-- A match-engine call whose value is settled: some fuel budget suffices to
produce the (non-exhaustion) outcome `o`. -/
def Computes (rules : RuleMap) (input : List Char) (p : Nat) (e : Expression)
    (o : MatchOutcome) : Prop :=
  o ≠ .diverge ∧ ∃ fuel, parseExpression rules fuel input p e = o

/-- The per-node well-formedness invariant of the parse tree: the stored
`value` is the slice `input[start:end]`, the span is ordered, and the same
holds for every descendant. -/
inductive NodeOk (input : List Char) : ParseNode → Prop where
  | mk : ∀ t v s e cs, v = sliceList input s e → s ≤ e →
      (∀ c ∈ cs, NodeOk input c) → NodeOk input (.mk t v s e cs)

/-- The nodes already accumulated inside a pending loop task (empty for
non-loop tasks). -/
def taskAcc : MTask → List ParseNode
  | .seq _ acc => acc
  | .reps _ _ _ acc _ => acc
  | _ => []

/-- The grammar `num ::= digit+` / `digit ::= [0-9]` exactly as the compiler
builds it: the bracketed class compiles to an Optional wrapping the character
range, so `digit` succeeds with zero width at every position. -/
def digitPlusBracketGrammar : Grammar :=
  ⟨[("num", .repetition 1 none (.non_terminal "digit")),
    ("digit", .optional (.character_range '0' '9'))], "num"⟩

/-- The grammar `num ::= digit+` / `digit ::= 0-9` (bare range form) as the
compiler builds it. -/
def digitPlusRangeGrammar : Grammar :=
  ⟨[("num", .repetition 1 none (.non_terminal "digit")),
    ("digit", .character_range '0' '9')], "num"⟩

/-! ## Basic lemmas -/

theorem sliceList_get (input : List Char) (p : Nat) (c : Char)
    (h : input.get? p = some c) : sliceList input p (p + 1) = [c] := by
  unfold sliceList
  induction input generalizing p with
  | nil => simp at h
  | cons a rest ih =>
    cases p with
    | zero =>
      simp only [List.get?] at h
      cases h
      rfl
    | succ p =>
      simp only [List.get?] at h
      simpa [List.take_succ_cons, List.drop_succ_cons] using ih p h

theorem run_zero (rules : RuleMap) (input : List Char) (p : Nat) (t : MTask) :
    run rules 0 input p t = .diverge := rfl

/-- One-step unfolding of the repetition loop. -/
theorem run_reps_succ (rules : RuleMap) (f : Nat) (input : List Char)
    (p mn : Nat) (mx : Option Nat) (el : Expression) (acc : List ParseNode)
    (count : Nat) :
    run rules (f + 1) input p (.reps mn mx el acc count) =
      (if countLtMax count mx then
        match run rules f input p (.expr el) with
        | .diverge => .diverge
        | .err n => .err n
        | .fail => if count < mn then .fail else .ok ⟨p, none, some acc⟩
        | .ok r =>
          run rules f input r.position
            (.reps mn mx el (acc ++ resultNodes r) (count + 1))
      else if count < mn then .fail else .ok ⟨p, none, some acc⟩) := rfl

/-- One-step unfolding of a rule call. -/
theorem run_rule_succ (rules : RuleMap) (f : Nat) (input : List Char)
    (p : Nat) (name : String) :
    run rules (f + 1) input p (.rule name) =
      (match lookupRule rules name with
       | none => .err name
       | some rule =>
         match run rules f input p (.expr rule) with
         | .diverge => .diverge
         | .err n => .err n
         | .fail => .fail
         | .ok r =>
           .ok ⟨r.position,
                some (.mk name (sliceList input p r.position) p r.position
                  (r.children.getD [])), none⟩) := rfl

/-- One-step unfolding of the alternation loop. -/
theorem run_alts_succ (rules : RuleMap) (f : Nat) (input : List Char)
    (p : Nat) (alts : List Expression) :
    run rules (f + 1) input p (.alts alts) =
      (match alts with
       | [] => .fail
       | a :: rest =>
         match run rules f input p (.expr a) with
         | .fail => run rules f input p (.alts rest)
         | o => o) := rfl

/-- One-step unfolding of the concatenation loop. -/
theorem run_seq_succ (rules : RuleMap) (f : Nat) (input : List Char)
    (p : Nat) (elems : List Expression) (acc : List ParseNode) :
    run rules (f + 1) input p (.seq elems acc) =
      (match elems with
       | [] => .ok ⟨p, none, some acc⟩
       | el :: rest =>
         match run rules f input p (.expr el) with
         | .diverge => .diverge
         | .err n => .err n
         | .fail => .fail
         | .ok r =>
           run rules f input r.position (.seq rest (acc ++ resultNodes r))) :=
  rfl

theorem run_expr_alternation (rules : RuleMap) (f : Nat) (input : List Char)
    (p : Nat) (as : List Expression) :
    run rules (f + 1) input p (.expr (.alternation as)) =
      run rules f input p (.alts as) := rfl

theorem run_expr_concatenation (rules : RuleMap) (f : Nat) (input : List Char)
    (p : Nat) (es : List Expression) :
    run rules (f + 1) input p (.expr (.concatenation es)) =
      run rules f input p (.seq es []) := rfl

theorem run_expr_repetition (rules : RuleMap) (f : Nat) (input : List Char)
    (p mn : Nat) (mx : Option Nat) (el : Expression) :
    run rules (f + 1) input p (.expr (.repetition mn mx el)) =
      run rules f input p (.reps mn mx el [] 0) := rfl

theorem run_expr_optional (rules : RuleMap) (f : Nat) (input : List Char)
    (p : Nat) (el : Expression) :
    run rules (f + 1) input p (.expr (.optional el)) =
      (match run rules f input p (.expr el) with
       | .fail => .ok ⟨p, none, some []⟩
       | o => o) := rfl

theorem run_expr_terminal (rules : RuleMap) (f : Nat) (input : List Char)
    (p : Nat) (v : List Char) :
    run rules (f + 1) input p (.expr (.terminal v)) =
      (if sliceList input p (p + v.length) = v then
        .ok ⟨p + v.length,
             some (.mk "terminal" v p (p + v.length) []), none⟩
      else .fail) := rfl

theorem run_expr_character_range (rules : RuleMap) (f : Nat)
    (input : List Char) (p : Nat) (lo hi : Char) :
    run rules (f + 1) input p (.expr (.character_range lo hi)) =
      (match input.get? p with
       | some c =>
         if lo ≤ c ∧ c ≤ hi then
           .ok ⟨p + 1, some (.mk "character" [c] p (p + 1) []), none⟩
         else .fail
       | none => .fail) := rfl

theorem run_expr_non_terminal (rules : RuleMap) (f : Nat) (input : List Char)
    (p : Nat) (name : String) :
    run rules (f + 1) input p (.expr (.non_terminal name)) =
      run rules f input p (.rule name) := rfl

theorem run_expr_empty (rules : RuleMap) (f : Nat) (input : List Char)
    (p : Nat) :
    run rules (f + 1) input p (.expr .empty) =
      .ok ⟨p, none, some []⟩ := rfl

/-- A successful result of a leaf expression (terminal, character range or
non-terminal) carries no `children` field. -/
theorem leafResult_children_none (rules : RuleMap) (fuel : Nat)
    (input : List Char) (p : Nat) (e : Expression) (r : MatchResult)
    (hleaf : (∃ v, e = .terminal v) ∨ (∃ a b, e = .character_range a b) ∨
      (∃ m, e = .non_terminal m))
    (hok : run rules fuel input p (.expr e) = .ok r) :
    r.children = none := by
  cases fuel with
  | zero => simp [run] at hok
  | succ f =>
    rcases hleaf with ⟨v, rfl⟩ | ⟨a, b, rfl⟩ | ⟨m, rfl⟩
    · simp only [run] at hok
      split at hok
      · cases hok; rfl
      · cases hok
    · simp only [run] at hok
      split at hok
      · split at hok
        · cases hok; rfl
        · cases hok
      · cases hok
    · simp only [run] at hok
      cases f with
      | zero => simp [run] at hok
      | succ f' =>
        simp only [run] at hok
        split at hok
        · cases hok
        · split at hok <;> cases hok
          rfl

/-! ## C1: the fate of leaf matches under a rule wrapper -/

/-- C1 (counterexample): for the grammar `a ::= "x"` matched against `"x"`,
the rule-tagged node has an empty `children` list — the terminal leaf match is
not nested as a child node, contrary to the claim. -/
theorem ruleNode_leaf_child_counterexample :
    parseGrammar (String.toList "a ::= \"x\"") =
      .ok ⟨[("a", .terminal ['x'])], "a"⟩ ∧
    parse ⟨[("a", .terminal ['x'])], "a"⟩ 10 ['x'] =
      .success (.mk "a" ['x'] 0 1 []) ∧
    (ParseNode.mk "a" ['x'] 0 1 []).children = [] :=
  ⟨rfl, rfl, rfl⟩

/-- C1 (amended): when a rule whose root expression is a Terminal,
CharacterRange or NonTerminal leaf matches, the leaf's node is discarded —
the rule-tagged node's children come from the sub-result's absent `children`
field and are therefore empty; the leaf match is reflected only in the rule
node's own value and span. -/
theorem ruleNode_drops_leaf_child (rules : RuleMap) (fuel : Nat)
    (input : List Char) (p : Nat) (name : String) (e : Expression)
    (r : MatchResult) (node : ParseNode)
    (hlook : lookupRule rules name = some e)
    (hleaf : (∃ v, e = .terminal v) ∨ (∃ a b, e = .character_range a b) ∨
      (∃ m, e = .non_terminal m))
    (hok : parseRule rules fuel input p name = .ok r)
    (hnode : r.node = some node) :
    node.children = [] := by
  cases fuel with
  | zero => simp [parseRule, run] at hok
  | succ f =>
    simp only [parseRule, run, hlook] at hok
    cases h1 : run rules f input p (.expr e) <;> rw [h1] at hok <;> cases hok
    have := leafResult_children_none rules f input p e _ hleaf h1
    rw [this] at hnode
    cases hnode
    rfl

/-- C1 witness: instantiating the amended statement at `a ::= "x"` against
`"x"`. -/
theorem ruleNode_drops_leaf_child_witness :
    parseRule [("a", .terminal ['x'])] 10 ['x'] 0 "a" =
      .ok ⟨1, some (.mk "a" ['x'] 0 1 []), none⟩ ∧
    (ParseNode.mk "a" ['x'] 0 1 []).children = [] :=
  ⟨rfl,
    ruleNode_drops_leaf_child [("a", .terminal ['x'])] 10 ['x'] 0 "a"
      (.terminal ['x']) ⟨1, some (.mk "a" ['x'] 0 1 []), none⟩
      (.mk "a" ['x'] 0 1 []) rfl (Or.inl ⟨['x'], rfl⟩) rfl rfl⟩

/-! ## C2: incomplete parses are failures carrying the unconsumed suffix -/

/-- C2: if top-level matching of the start rule succeeds at offset 0 but the
reached position is strictly less than the input length, the parse reports an
incomplete parse carrying the unconsumed suffix and its offset. -/
theorem parse_incomplete_of_partial (g : Grammar) (fuel : Nat)
    (input : List Char) (r : MatchResult)
    (hrun : run g.rules fuel input 0 (.rule g.startRule) = .ok r)
    (hlt : r.position < input.length) :
    parse g fuel input = .incompleteParse (input.drop r.position) r.position := by
  simp [parse, hrun, hlt]

/-- C2 witness: for rule `a ::= "x"` and input `"xy"`, the prefix match stops
at position 1 and the parse reports the remaining text `"y"` at offset 1. -/
theorem parse_incomplete_of_partial_witness :
    parseGrammar (String.toList "a ::= \"x\"") =
      .ok ⟨[("a", .terminal ['x'])], "a"⟩ ∧
    parse ⟨[("a", .terminal ['x'])], "a"⟩ 10 (String.toList "xy") =
      .incompleteParse ['y'] 1 :=
  ⟨rfl,
    parse_incomplete_of_partial ⟨[("a", .terminal ['x'])], "a"⟩ 10
      (String.toList "xy") ⟨1, some (.mk "a" ['x'] 0 1 []), none⟩ rfl
      (by decide)⟩

/-! ## C4: numeric repetition bounds -/

/-- C4: evaluating the element compiler on the bounded forms.  `x{2}` and
`x{2,5}` compile as the claim states, but the failing input `x{2,}` compiles
to `Repetition{min: 2, max: 2}` rather than an unbounded maximum: the
captured `max` group can never contain a comma, so the omitted-upper-bound
case falls into the exactly-`n` case. -/
theorem parseElement_bounded_repetition :
    parseElement 40 (String.toList "x\x7b2,\x7d") =
      .repetition 2 (some 2) (.non_terminal "x") ∧
    parseElement 40 (String.toList "x\x7b2\x7d") =
      .repetition 2 (some 2) (.non_terminal "x") ∧
    parseElement 40 (String.toList "x\x7b2,5\x7d") =
      .repetition 2 (some 5) (.non_terminal "x") :=
  ⟨rfl, rfl, rfl⟩

/-! ## C10: unknown-rule references escape as exceptions -/

/-- C10: a NonTerminal referencing a name absent from the rule map makes the
whole match fail with the unknown-rule error, even inside an Alternation
alternative (no later alternative is tried), an Optional, or a min-0
Repetition whose ordinary failure would be recovered from; concretely, for
grammar `a ::= b | "x"` and input `"x"` the parse reports unknown rule `b`
instead of trying the second alternative. -/
theorem unknownRule_escapes (rules : RuleMap) (f : Nat) (input : List Char)
    (p : Nat) (name : String) (rest : List Expression) (mx : Option Nat)
    (hmiss : lookupRule rules name = none)
    (hmx : countLtMax 0 mx = true) :
    (parseExpression rules (f + 4) input p
      (.alternation (.non_terminal name :: rest)) = .err name) ∧
    (parseExpression rules (f + 3) input p
      (.optional (.non_terminal name)) = .err name) ∧
    (parseExpression rules (f + 4) input p
      (.repetition 0 mx (.non_terminal name)) = .err name) ∧
    parseGrammar (String.toList "a ::= b | \"x\"") =
      .ok ⟨[("a", .alternation [.non_terminal "b", .terminal ['x']])], "a"⟩ ∧
    parse ⟨[("a", .alternation [.non_terminal "b", .terminal ['x']])], "a"⟩
      10 ['x'] = .unknownRule "b" := by
  refine ⟨?_, ?_, ?_, rfl, rfl⟩
  · show run rules (f + 4) input p (.expr _) = _
    simp [run, hmiss]
  · show run rules (f + 3) input p (.expr _) = _
    simp [run, hmiss]
  · show run rules (f + 4) input p (.expr _) = _
    simp [run, hmiss, hmx]

/-- C10 witness: instantiating the escape lemma at an empty rule map. -/
theorem unknownRule_escapes_witness :
    parseExpression [] 4 [] 0
      (.alternation [.non_terminal "missing", .terminal ['x']]) =
      .err "missing" :=
  (unknownRule_escapes [] 0 [] 0 "missing" [.terminal ['x']] none rfl rfl).1

/-! ## C5 and C6: compiler success and failure -/

theorem mapSet_ne_nil (rules : RuleMap) (name : String) (e : Expression) :
    mapSet rules name e ≠ [] := by
  unfold mapSet
  split
  · cases rules with
    | nil => simp_all
    | cons a rest => simp
  · simp

/-- The registration loop leaves the rule map empty exactly when it started
empty and no line matched the rule pattern. -/
theorem parseGrammarLines_fst_nil_iff (lines : List (List Char)) :
    ∀ rules start, (parseGrammarLines lines rules start).1 = [] ↔
      rules = [] ∧ ∀ l ∈ lines, matchRuleLine l = none := by
  induction lines with
  | nil => intro rules start; simp [parseGrammarLines]
  | cons l rest ih =>
    intro rules start
    cases h : matchRuleLine l with
    | some nd =>
      obtain ⟨name, defn⟩ := nd
      simp only [parseGrammarLines, h]
      rw [ih]
      constructor
      · rintro ⟨hm, -⟩
        exact absurd hm (mapSet_ne_nil rules name (parseRuleDefinition defn))
      · rintro ⟨-, hall⟩
        have := hall l (by simp)
        rw [h] at this
        cases this
    | none =>
      simp only [parseGrammarLines, h]
      rw [ih]
      simp [h]

/-- The registration loop's start rule: the incoming one if already fixed,
else the name from the first matching line. -/
theorem parseGrammarLines_snd (lines : List (List Char)) :
    ∀ rules start, (parseGrammarLines lines rules start).2 =
      (match start with
       | some s => some s
       | none =>
         (lines.filterMap (fun l => (matchRuleLine l).map Prod.fst)).head?) := by
  induction lines with
  | nil => intro rules start; cases start <;> simp [parseGrammarLines]
  | cons l rest ih =>
    intro rules start
    cases h : matchRuleLine l with
    | some nd =>
      obtain ⟨name, defn⟩ := nd
      simp only [parseGrammarLines, h]
      rw [ih]
      cases start <;> simp [h]
    | none =>
      simp only [parseGrammarLines, h]
      rw [ih]
      cases start <;> simp [h]

/-- C5: for every grammar text one of whose (comment-stripped, non-blank)
lines matches the rule-definition pattern, compilation succeeds and yields a
Grammar with a non-empty rule list whose default start rule is the name of
the first matching line, i.e. the first rule name registered. -/
theorem parseGrammar_ok_of_rule_line (text : List Char)
    (h : ∃ l ∈ processedLines text, (matchRuleLine l).isSome) :
    ∃ g, parseGrammar text = .ok g ∧ g.rules ≠ [] ∧
      some g.startRule =
        ((processedLines text).filterMap
          (fun l => (matchRuleLine l).map Prod.fst)).head? := by
  obtain ⟨l0, hl0, hsome⟩ := h
  rcases hpg : parseGrammarLines (processedLines text) [] none with ⟨rules, start⟩
  have hfst := parseGrammarLines_fst_nil_iff (processedLines text) [] none
  rw [hpg] at hfst
  have hsnd := parseGrammarLines_snd (processedLines text) [] none
  rw [hpg] at hsnd
  simp only at hsnd
  have hnames : ∃ n, ((processedLines text).filterMap
      (fun l => (matchRuleLine l).map Prod.fst)).head? = some n := by
    rcases hL : (processedLines text).filterMap
        (fun l => (matchRuleLine l).map Prod.fst) with _ | ⟨n, ns⟩
    · rw [List.filterMap_eq_nil_iff] at hL
      have := hL l0 hl0
      rcases hm : matchRuleLine l0 with - | nd
      · rw [hm] at hsome; cases hsome
      · rw [hm] at this; cases this
    · exact ⟨n, rfl⟩
  obtain ⟨n, hn⟩ := hnames
  rw [hn] at hsnd
  cases rules with
  | nil =>
    exfalso
    have := (hfst.mp rfl).2 l0 hl0
    rw [this] at hsome
    cases hsome
  | cons r rs =>
    refine ⟨⟨r :: rs, start.getD r.1⟩, ?_, by simp, ?_⟩
    · unfold parseGrammar
      rw [hpg]
    · rw [hsnd]
      simp only [Option.getD_some]
      exact hn.symm

/-- C5 witness: instantiating at the one-line grammar `a ::= "x"`. -/
theorem parseGrammar_ok_of_rule_line_witness :
    ∃ g, parseGrammar (String.toList "a ::= \"x\"") = .ok g ∧ g.rules ≠ [] ∧
      some g.startRule =
        ((processedLines (String.toList "a ::= \"x\"")).filterMap
          (fun l => (matchRuleLine l).map Prod.fst)).head? :=
  parseGrammar_ok_of_rule_line (String.toList "a ::= \"x\"") (by decide)

/-- C6: compilation fails — always with the descriptive no-rules message —
exactly when, after comment stripping, no line matches the rule-definition
pattern; in particular empty and comment-only texts fail, while a forward
reference to an undefined rule (`a ::= b` with `b` undefined) compiles. -/
theorem parseGrammar_error_iff (text : List Char) :
    (parseGrammar text = .error "No valid grammar rules found" ↔
      ∀ l ∈ processedLines text, matchRuleLine l = none) ∧
    parseGrammar [] = .error "No valid grammar rules found" ∧
    parseGrammar (String.toList "(* comment *)\n# note\n// also") =
      .error "No valid grammar rules found" ∧
    parseGrammar (String.toList "a ::= b") =
      .ok ⟨[("a", .non_terminal "b")], "a"⟩ := by
  refine ⟨?_, rfl, rfl, rfl⟩
  rcases hpg : parseGrammarLines (processedLines text) [] none with ⟨rules, start⟩
  have hfst := parseGrammarLines_fst_nil_iff (processedLines text) [] none
  rw [hpg] at hfst
  simp only [true_and] at hfst
  unfold parseGrammar
  rw [hpg]
  cases rules with
  | nil => simpa using hfst.mp rfl
  | cons r rs =>
    simp only []
    constructor
    · intro hc
      cases hc
    · intro hall
      exact absurd (hfst.mpr hall) (by simp)

/-! ## C9: zero-width repetition bodies under an unbounded bound diverge -/

/-- C9: for a Repetition with unbounded `max` whose element always succeeds
without consuming input at the current position (at every fuel budget it
either exhausts the fuel or succeeds at the unchanged position — as Empty,
any Optional, a min-0 Repetition or an empty-literal Terminal do), matching
the Repetition there exhausts every fuel budget: the loop never sees a
sub-match failure and `max` is never reached, so it never terminates. -/
theorem repetition_unbounded_diverges (rules : RuleMap) (input : List Char)
    (p mn : Nat) (el : Expression)
    (h : ∀ f, parseExpression rules f input p el = .diverge ∨
      ∃ r, parseExpression rules f input p el = .ok r ∧ r.position = p) :
    ∀ fuel,
      parseExpression rules fuel input p (.repetition mn none el) = .diverge := by
  have key : ∀ f acc count,
      run rules f input p (.reps mn none el acc count) = .diverge := by
    intro f
    induction f with
    | zero => intro acc count; rfl
    | succ f ih =>
      intro acc count
      have hel := h f
      rw [show parseExpression rules f input p el =
        run rules f input p (.expr el) from rfl] at hel
      show run rules (f + 1) input p (.reps mn none el acc count) = .diverge
      rcases hel with hd | ⟨r, hok, hpos⟩
      · simp only [run, countLtMax, hd, if_true]
      · simp only [run, countLtMax, hok, hpos, if_true]
        exact ih _ _
  intro fuel
  cases fuel with
  | zero => rfl
  | succ f =>
    show run rules (f + 1) input p (.expr _) = _
    simp only [run]
    exact key f [] 0

/-- C9 witness: the Empty element always succeeds at the current position
without consuming, and the unbounded repetition over it exhausts the budget. -/
theorem repetition_unbounded_diverges_witness :
    parseExpression [] 7 [] 0 (.repetition 0 none .empty) = .diverge :=
  repetition_unbounded_diverges [] [] 0 0 .empty
    (fun f =>
      match f with
      | 0 => Or.inl rfl
      | Nat.succ _ => Or.inr ⟨⟨0, none, some []⟩, rfl, rfl⟩) 7

/-! ## Fuel stability -/

/-- Every settled match-engine call (any outcome other than fuel exhaustion)
is stable under increasing fuel: the fuel is a pure artifact of the
embedding, not part of the source semantics. -/
theorem run_stable (rules : RuleMap) (input : List Char) :
    ∀ fuel p t, run rules fuel input p t ≠ .diverge →
      ∀ fuel', fuel ≤ fuel' →
        run rules fuel' input p t = run rules fuel input p t := by
  intro fuel
  induction fuel with
  | zero => intro p t h; exact absurd rfl h
  | succ f ih =>
    intro p t h fuel' hle
    obtain ⟨f', rfl⟩ : ∃ g, fuel' = g + 1 := ⟨fuel' - 1, by omega⟩
    have hf : f ≤ f' := by omega
    cases t with
    | rule name =>
      cases hlook : lookupRule rules name with
      | none => simp [run_rule_succ, hlook]
      | some rule =>
        have hsub : run rules f input p (.expr rule) ≠ .diverge := fun hd =>
          h (by simp [run_rule_succ, hlook, hd])
        simp only [run_rule_succ, hlook, ih p (.expr rule) hsub f' hf]
    | expr e =>
      cases e with
      | alternation as =>
        have hsub : run rules f input p (.alts as) ≠ .diverge := fun hd =>
          h (by rw [run_expr_alternation, hd])
        rw [run_expr_alternation, run_expr_alternation,
          ih p (.alts as) hsub f' hf]
      | concatenation es =>
        have hsub : run rules f input p (.seq es []) ≠ .diverge := fun hd =>
          h (by rw [run_expr_concatenation, hd])
        rw [run_expr_concatenation, run_expr_concatenation,
          ih p (.seq es []) hsub f' hf]
      | repetition mn mx el =>
        have hsub : run rules f input p (.reps mn mx el [] 0) ≠ .diverge :=
          fun hd => h (by rw [run_expr_repetition, hd])
        rw [run_expr_repetition, run_expr_repetition,
          ih p (.reps mn mx el [] 0) hsub f' hf]
      | optional el =>
        have hsub : run rules f input p (.expr el) ≠ .diverge := fun hd =>
          h (by rw [run_expr_optional, hd])
        rw [run_expr_optional, run_expr_optional, ih p (.expr el) hsub f' hf]
      | terminal v => rw [run_expr_terminal, run_expr_terminal]
      | character_range lo hi =>
        rw [run_expr_character_range, run_expr_character_range]
      | non_terminal name =>
        have hsub : run rules f input p (.rule name) ≠ .diverge := fun hd =>
          h (by rw [run_expr_non_terminal, hd])
        rw [run_expr_non_terminal, run_expr_non_terminal,
          ih p (.rule name) hsub f' hf]
      | empty => rw [run_expr_empty, run_expr_empty]
    | alts as =>
      cases as with
      | nil => rw [run_alts_succ, run_alts_succ]
      | cons a rest =>
        cases ha : run rules f input p (.expr a) with
        | diverge => exact absurd (by simp only [run_alts_succ, ha]) h
        | fail =>
          have hsub : run rules f input p (.expr a) ≠ .diverge := by
            rw [ha]; simp
          have hrest : run rules f input p (.alts rest) ≠ .diverge := fun hd =>
            h (by simp only [run_alts_succ, ha, hd])
          simp only [run_alts_succ, ih p (.expr a) hsub f' hf, ha,
            ih p (.alts rest) hrest f' hf]
        | err n =>
          have hsub : run rules f input p (.expr a) ≠ .diverge := by
            rw [ha]; simp
          simp only [run_alts_succ, ih p (.expr a) hsub f' hf, ha]
        | ok r =>
          have hsub : run rules f input p (.expr a) ≠ .diverge := by
            rw [ha]; simp
          simp only [run_alts_succ, ih p (.expr a) hsub f' hf, ha]
    | seq elems acc =>
      cases elems with
      | nil => rw [run_seq_succ, run_seq_succ]
      | cons el rest =>
        cases ha : run rules f input p (.expr el) with
        | diverge => exact absurd (by simp only [run_seq_succ, ha]) h
        | err n =>
          have hsub : run rules f input p (.expr el) ≠ .diverge := by
            rw [ha]; simp
          simp only [run_seq_succ, ih p (.expr el) hsub f' hf, ha]
        | fail =>
          have hsub : run rules f input p (.expr el) ≠ .diverge := by
            rw [ha]; simp
          simp only [run_seq_succ, ih p (.expr el) hsub f' hf, ha]
        | ok r =>
          have hsub : run rules f input p (.expr el) ≠ .diverge := by
            rw [ha]; simp
          have hcont : run rules f input r.position
              (.seq rest (acc ++ resultNodes r)) ≠ .diverge := fun hd =>
            h (by simp only [run_seq_succ, ha, hd])
          simp only [run_seq_succ, ih p (.expr el) hsub f' hf, ha,
            ih r.position (.seq rest (acc ++ resultNodes r)) hcont f' hf]
    | reps mn mx el acc count =>
      cases hmx : countLtMax count mx with
      | false => simp [run_reps_succ, hmx]
      | true =>
        cases ha : run rules f input p (.expr el) with
        | diverge => exact absurd (by simp [run_reps_succ, hmx, ha]) h
        | err n =>
          have hsub : run rules f input p (.expr el) ≠ .diverge := by
            rw [ha]; simp
          simp [run_reps_succ, hmx, ha, ih p (.expr el) hsub f' hf]
        | fail =>
          have hsub : run rules f input p (.expr el) ≠ .diverge := by
            rw [ha]; simp
          simp [run_reps_succ, hmx, ha, ih p (.expr el) hsub f' hf]
        | ok r =>
          have hsub : run rules f input p (.expr el) ≠ .diverge := by
            rw [ha]; simp
          have hcont : run rules f input r.position
              (.reps mn mx el (acc ++ resultNodes r) (count + 1)) ≠
                .diverge := fun hd =>
            h (by simp [run_reps_succ, hmx, ha, hd])
          simp [run_reps_succ, hmx, ha, ih p (.expr el) hsub f' hf,
            ih r.position (.reps mn mx el (acc ++ resultNodes r) (count + 1))
              hcont f' hf]

/-! ## C3: `digit+` over a bracketed digit class -/

/-- C3 (counterexample): compiling `num ::= digit+` / `digit ::= [0-9]` turns
the bracketed class into an Optional around the range, so `digit` succeeds
with zero width once the input is exhausted and the unbounded `digit+` loop
exhausts every fuel budget on `"123"`: matching does not terminate, so no
terminating run yields the claimed 3-child node. -/
theorem digitPlus_bracket_counterexample :
    parseGrammar (String.toList "num ::= digit+\ndigit ::= [0-9]") =
      .ok digitPlusBracketGrammar ∧
    MatchDiverges digitPlusBracketGrammar (String.toList "123") := by
  refine ⟨rfl, ?_⟩
  have h0 : ∀ n : Nat, run digitPlusBracketGrammar.rules (n + 4)
      (String.toList "123") 0 (.expr (.non_terminal "digit")) =
      .ok ⟨1, some (.mk "digit" ['1'] 0 1 []), none⟩ := fun n => rfl
  have h1 : ∀ n : Nat, run digitPlusBracketGrammar.rules (n + 4)
      (String.toList "123") 1 (.expr (.non_terminal "digit")) =
      .ok ⟨2, some (.mk "digit" ['2'] 1 2 []), none⟩ := fun n => rfl
  have h2 : ∀ n : Nat, run digitPlusBracketGrammar.rules (n + 4)
      (String.toList "123") 2 (.expr (.non_terminal "digit")) =
      .ok ⟨3, some (.mk "digit" ['3'] 2 3 []), none⟩ := fun n => rfl
  have h3 : ∀ n : Nat, run digitPlusBracketGrammar.rules (n + 4)
      (String.toList "123") 3 (.expr (.non_terminal "digit")) =
      .ok ⟨3, some (.mk "digit" [] 3 3 []), none⟩ := fun n => rfl
  have stall : ∀ f acc count, run digitPlusBracketGrammar.rules f
      (String.toList "123") 3
      (.reps 1 none (.non_terminal "digit") acc count) = .diverge := by
    intro f
    induction f with
    | zero => intro acc count; rfl
    | succ f ih =>
      intro acc count
      rcases f with - | (- | (- | (- | n)))
      · rfl
      · rfl
      · rfl
      · rfl
      · show run digitPlusBracketGrammar.rules ((n + 4) + 1)
          (String.toList "123") 3 _ = _
        rw [run_reps_succ, h3 n]
        exact ih _ _
  have step2 : ∀ f acc count, run digitPlusBracketGrammar.rules f
      (String.toList "123") 2
      (.reps 1 none (.non_terminal "digit") acc count) = .diverge := by
    intro f acc count
    rcases f with - | (- | (- | (- | (- | n))))
    · rfl
    · rfl
    · rfl
    · rfl
    · rfl
    · show run digitPlusBracketGrammar.rules ((n + 4) + 1)
        (String.toList "123") 2 _ = _
      rw [run_reps_succ, h2 n]
      exact stall _ _ _
  have step1 : ∀ f acc count, run digitPlusBracketGrammar.rules f
      (String.toList "123") 1
      (.reps 1 none (.non_terminal "digit") acc count) = .diverge := by
    intro f acc count
    rcases f with - | (- | (- | (- | (- | n))))
    · rfl
    · rfl
    · rfl
    · rfl
    · rfl
    · show run digitPlusBracketGrammar.rules ((n + 4) + 1)
        (String.toList "123") 1 _ = _
      rw [run_reps_succ, h1 n]
      exact step2 _ _ _
  have step0 : ∀ f acc count, run digitPlusBracketGrammar.rules f
      (String.toList "123") 0
      (.reps 1 none (.non_terminal "digit") acc count) = .diverge := by
    intro f acc count
    rcases f with - | (- | (- | (- | (- | n))))
    · rfl
    · rfl
    · rfl
    · rfl
    · rfl
    · show run digitPlusBracketGrammar.rules ((n + 4) + 1)
        (String.toList "123") 0 _ = _
      rw [run_reps_succ, h0 n]
      exact step1 _ _ _
  intro fuel
  rcases fuel with - | (- | f)
  · rfl
  · rfl
  · show parse digitPlusBracketGrammar (f + 2) (String.toList "123") = .diverge
    have rule_unfold : run digitPlusBracketGrammar.rules (f + 2)
        (String.toList "123") 0 (.rule "num") =
        (match run digitPlusBracketGrammar.rules f (String.toList "123") 0
            (.reps 1 none (.non_terminal "digit") [] 0) with
        | .diverge => .diverge
        | .err n => .err n
        | .fail => .fail
        | .ok r =>
          .ok ⟨r.position,
               some (.mk "num" (sliceList (String.toList "123") 0 r.position)
                 0 r.position (r.children.getD [])), none⟩) := rfl
    have : run digitPlusBracketGrammar.rules (f + 2) (String.toList "123") 0
        (.rule "num") = .diverge := by
      rw [rule_unfold, step0 f [] 0]
    simp only [parse,
      show digitPlusBracketGrammar.startRule = "num" from rfl, this]

/-! ## C7: ordered choice -/

/-- If the alternation loop succeeds, some alternative succeeds with that
very result and every earlier alternative fails. -/
theorem alts_ok_elim (rules : RuleMap) (input : List Char) (p : Nat) :
    ∀ (alts : List Expression) (f : Nat) (r : MatchResult),
      run rules f input p (.alts alts) = .ok r →
      ∃ i, ∃ hi : i < alts.length,
        (∃ g, run rules g input p (.expr (alts.get ⟨i, hi⟩)) = .ok r) ∧
        ∀ j, j < i → ∀ hj : j < alts.length,
          ∃ g, run rules g input p (.expr (alts.get ⟨j, hj⟩)) = .fail := by
  intro alts
  induction alts with
  | nil =>
    intro f r h
    cases f with
    | zero => simp [run_zero] at h
    | succ g => simp [run_alts_succ] at h
  | cons a rest ih =>
    intro f r h
    cases f with
    | zero => simp [run_zero] at h
    | succ g =>
      simp only [run_alts_succ] at h
      cases ha : run rules g input p (.expr a) with
      | diverge => rw [ha] at h; cases h
      | err n => rw [ha] at h; cases h
      | ok r' =>
        rw [ha] at h
        injection h with h'
        subst h'
        refine ⟨0, by simp, ⟨g, by simpa using ha⟩, ?_⟩
        intro j hj
        exact absurd hj (by omega)
      | fail =>
        rw [ha] at h
        obtain ⟨i, hi, hok, hpre⟩ := ih g r h
        refine ⟨i + 1, by simpa using Nat.succ_lt_succ hi, by simpa using hok,
          ?_⟩
        intro j hj hjlen
        cases j with
        | zero => exact ⟨g, by simpa using ha⟩
        | succ j' =>
          have := hpre j' (by omega) (by simpa using Nat.lt_of_succ_lt_succ hjlen)
          simpa using this

/-- If the alternation loop fails, every alternative fails. -/
theorem alts_fail_elim (rules : RuleMap) (input : List Char) (p : Nat) :
    ∀ (alts : List Expression) (f : Nat),
      run rules f input p (.alts alts) = .fail →
      ∀ i, ∀ hi : i < alts.length,
        ∃ g, run rules g input p (.expr (alts.get ⟨i, hi⟩)) = .fail := by
  intro alts
  induction alts with
  | nil =>
    intro f h i hi
    exact absurd hi (by simp)
  | cons a rest ih =>
    intro f h i hi
    cases f with
    | zero => simp [run_zero] at h
    | succ g =>
      simp only [run_alts_succ] at h
      cases ha : run rules g input p (.expr a) with
      | diverge => rw [ha] at h; cases h
      | err n => rw [ha] at h; cases h
      | ok r' => rw [ha] at h; cases h
      | fail =>
        rw [ha] at h
        cases i with
        | zero => exact ⟨g, by simpa using ha⟩
        | succ i' =>
          have := ih g h i' (by simpa using Nat.lt_of_succ_lt_succ hi)
          simpa using this

/-- If some alternative succeeds and all earlier ones fail, the alternation
loop succeeds with that result (using fuel stability to align budgets). -/
theorem alts_ok_intro (rules : RuleMap) (input : List Char) (p : Nat) :
    ∀ (alts : List Expression) (i : Nat) (hi : i < alts.length)
      (r : MatchResult),
      (∃ g, run rules g input p (.expr (alts.get ⟨i, hi⟩)) = .ok r) →
      (∀ j, j < i → ∀ hj : j < alts.length,
        ∃ g, run rules g input p (.expr (alts.get ⟨j, hj⟩)) = .fail) →
      ∃ F, run rules F input p (.alts alts) = .ok r := by
  intro alts
  induction alts with
  | nil =>
    intro i hi
    exact absurd hi (by simp)
  | cons a rest ih =>
    intro i hi r hok hpre
    cases i with
    | zero =>
      obtain ⟨g, hg⟩ := hok
      refine ⟨g + 1, ?_⟩
      simp only [List.get] at hg
      simp only [run_alts_succ, hg]
    | succ i' =>
      obtain ⟨g0, hg0⟩ := hpre 0 (by omega) (by simp)
      simp only [List.get] at hg0
      obtain ⟨F, hF⟩ := ih i' (by simpa using Nat.lt_of_succ_lt_succ hi) r
        (by simpa using hok)
        (fun j hj hjl => by
          simpa using hpre (j + 1) (by omega) (by simpa using Nat.succ_lt_succ hjl))
      refine ⟨max g0 F + 1, ?_⟩
      have h1 : run rules (max g0 F) input p (.expr a) = .fail := by
        rw [run_stable rules input g0 p (.expr a) (by rw [hg0]; simp)
          (max g0 F) (Nat.le_max_left g0 F), hg0]
      have h2 : run rules (max g0 F) input p (.alts rest) = .ok r := by
        rw [run_stable rules input F p (.alts rest) (by rw [hF]; simp)
          (max g0 F) (Nat.le_max_right g0 F), hF]
      simp only [run_alts_succ, h1, h2]

/-- If every alternative fails, the alternation loop fails. -/
theorem alts_fail_intro (rules : RuleMap) (input : List Char) (p : Nat) :
    ∀ alts : List Expression,
      (∀ i, ∀ hi : i < alts.length,
        ∃ g, run rules g input p (.expr (alts.get ⟨i, hi⟩)) = .fail) →
      ∃ F, run rules F input p (.alts alts) = .fail := by
  intro alts
  induction alts with
  | nil => exact fun _ => ⟨1, rfl⟩
  | cons a rest ih =>
    intro h
    obtain ⟨g0, hg0⟩ := h 0 (by simp)
    simp only [List.get] at hg0
    obtain ⟨F, hF⟩ := ih (fun j hjl => by
      simpa using h (j + 1) (by simpa using Nat.succ_lt_succ hjl))
    refine ⟨max g0 F + 1, ?_⟩
    have h1 : run rules (max g0 F) input p (.expr a) = .fail := by
      rw [run_stable rules input g0 p (.expr a) (by rw [hg0]; simp)
        (max g0 F) (Nat.le_max_left g0 F), hg0]
    have h2 : run rules (max g0 F) input p (.alts rest) = .fail := by
      rw [run_stable rules input F p (.alts rest) (by rw [hF]; simp)
        (max g0 F) (Nat.le_max_right g0 F), hF]
    simp only [run_alts_succ, h1, h2]

/-- C7: matching an Alternation tries the alternatives in declaration order
and settles on the result of the first success, failing exactly when all
alternatives fail; a failed earlier alternative has no observable effect on
the returned result.  Concretely, `"hello" | "hi"` against `"hi"` succeeds
via the second alternative with the second alternative's own result, even
though the first alternative fails. -/
theorem alternation_ordered_choice :
    (∀ (rules : RuleMap) (input : List Char) (p : Nat)
      (alts : List Expression) (r : MatchResult),
      Computes rules input p (.alternation alts) (.ok r) ↔
        ∃ i, ∃ hi : i < alts.length,
          Computes rules input p (alts.get ⟨i, hi⟩) (.ok r) ∧
          ∀ j, ∀ hj : j < i,
            Computes rules input p (alts.get ⟨j, Nat.lt_trans hj hi⟩) .fail) ∧
    (∀ (rules : RuleMap) (input : List Char) (p : Nat)
      (alts : List Expression),
      Computes rules input p (.alternation alts) .fail ↔
        ∀ i, ∀ hi : i < alts.length,
          Computes rules input p (alts.get ⟨i, hi⟩) .fail) ∧
    (Computes [] (String.toList "hi") 0
      (.alternation [.terminal (String.toList "hello"),
        .terminal (String.toList "hi")])
      (.ok ⟨2, some (.mk "terminal" ['h', 'i'] 0 2 []), none⟩) ∧
     Computes [] (String.toList "hi") 0
      (.terminal (String.toList "hello")) .fail) := by
  refine ⟨?_, ?_, ⟨by simp, 5, rfl⟩, ⟨by simp, 1, rfl⟩⟩
  · intro rules input p alts r
    constructor
    · rintro ⟨-, f, hf⟩
      cases f with
      | zero => simp [parseExpression, run_zero] at hf
      | succ g =>
        rw [parseExpression, run_expr_alternation] at hf
        obtain ⟨i, hi, ⟨g', hok⟩, hpre⟩ := alts_ok_elim rules input p alts g r hf
        refine ⟨i, hi, ⟨by simp, g', hok⟩, ?_⟩
        intro j hj
        obtain ⟨g'', hfail⟩ := hpre j hj (Nat.lt_trans hj hi)
        exact ⟨by simp, g'', hfail⟩
    · rintro ⟨i, hi, ⟨-, g, hok⟩, hpre⟩
      have hpre' : ∀ j, j < i → ∀ hj : j < alts.length,
          ∃ g, run rules g input p (.expr (alts.get ⟨j, hj⟩)) = .fail := by
        intro j hj hjl
        obtain ⟨-, g', hg'⟩ := hpre j hj
        exact ⟨g', hg'⟩
      obtain ⟨F, hF⟩ := alts_ok_intro rules input p alts i hi r ⟨g, hok⟩ hpre'
      exact ⟨by simp, F + 1, by rw [parseExpression, run_expr_alternation]; exact hF⟩
  · intro rules input p alts
    constructor
    · rintro ⟨-, f, hf⟩
      cases f with
      | zero => simp [parseExpression, run_zero] at hf
      | succ g =>
        rw [parseExpression, run_expr_alternation] at hf
        intro i hi
        obtain ⟨g', hg'⟩ := alts_fail_elim rules input p alts g hf i hi
        exact ⟨by simp, g', hg'⟩
    · intro h
      obtain ⟨F, hF⟩ := alts_fail_intro rules input p alts (fun i hi => by
        obtain ⟨-, g, hg⟩ := h i hi
        exact ⟨g, hg⟩)
      exact ⟨by simp, F + 1, by rw [parseExpression, run_expr_alternation]; exact hF⟩

/-- C3 (amended): with the digit rule written as the bare range `0-9` (so
that it compiles to a CharacterRange, not an Optional), matching the `digit+`
rule as start against `"123"` terminates and yields a node spanning `[0,3)`
with exactly 3 children, each spanning one character. -/
theorem digitPlus_bare_range_matches :
    parseGrammar (String.toList "num ::= digit+\ndigit ::= 0-9") =
      .ok digitPlusRangeGrammar ∧
    parse digitPlusRangeGrammar 30 (String.toList "123") =
      .success (.mk "num" ['1', '2', '3'] 0 3
        [.mk "digit" ['1'] 0 1 [], .mk "digit" ['2'] 1 2 [],
         .mk "digit" ['3'] 2 3 []]) :=
  ⟨rfl, rfl⟩

/-! ## C8: every produced node stores its own slice of the input -/

/-- The structural invariant of the match engine: whenever a call (whose
already-accumulated nodes are well-formed) succeeds, the reached position is
at least the starting one, and every node of the result — and recursively
every descendant — stores exactly the input slice `[start, end)` it spans,
with an ordered span. -/
theorem run_nodes_ok (rules : RuleMap) (input : List Char) :
    ∀ fuel p t r,
      (∀ n ∈ taskAcc t, NodeOk input n) →
      run rules fuel input p t = .ok r →
      p ≤ r.position ∧ ∀ n ∈ resultNodes r, NodeOk input n := by
  intro fuel
  induction fuel with
  | zero => intro p t r _ h; simp [run_zero] at h
  | succ f ih =>
    intro p t r hacc h
    cases t with
    | rule name =>
      rw [run_rule_succ] at h
      cases hlook : lookupRule rules name with
      | none => simp only [hlook] at h; cases h
      | some rule =>
        simp only [hlook] at h
        cases h1 : run rules f input p (.expr rule) with
        | diverge => rw [h1] at h; cases h
        | err n => rw [h1] at h; cases h
        | fail => rw [h1] at h; cases h
        | ok r' =>
          rw [h1] at h
          injection h with h'
          subst h'
          obtain ⟨hpos, hnodes⟩ := ih p (.expr rule) r' (by simp [taskAcc]) h1
          refine ⟨hpos, ?_⟩
          intro n hn
          simp only [resultNodes, Option.toList_some, Option.getD_none,
            List.append_nil, List.mem_singleton] at hn
          subst hn
          exact NodeOk.mk _ _ _ _ _ rfl hpos (fun c hc =>
            hnodes c (List.mem_append_right _ hc))
    | expr e =>
      cases e with
      | alternation as =>
        rw [run_expr_alternation] at h
        exact ih p (.alts as) r (by simp [taskAcc]) h
      | concatenation es =>
        rw [run_expr_concatenation] at h
        exact ih p (.seq es []) r (by simp [taskAcc]) h
      | repetition mn mx el =>
        rw [run_expr_repetition] at h
        exact ih p (.reps mn mx el [] 0) r (by simp [taskAcc]) h
      | optional el =>
        rw [run_expr_optional] at h
        cases h1 : run rules f input p (.expr el) with
        | diverge => rw [h1] at h; cases h
        | err n => rw [h1] at h; cases h
        | fail =>
          rw [h1] at h
          injection h with h'
          subst h'
          exact ⟨Nat.le_refl p, by simp [resultNodes]⟩
        | ok r' =>
          rw [h1] at h
          injection h with h'
          subst h'
          exact ih p (.expr el) r' (by simp [taskAcc]) h1
      | terminal v =>
        rw [run_expr_terminal] at h
        split at h
        next hcond =>
          injection h with h'
          subst h'
          refine ⟨Nat.le_add_right _ _, ?_⟩
          intro n hn
          simp only [resultNodes, Option.toList_some, Option.getD_none,
            List.append_nil, List.mem_singleton] at hn
          subst hn
          exact NodeOk.mk _ _ _ _ _ hcond.symm (by omega) (by simp)
        next _ => cases h
      | character_range lo hi =>
        rw [run_expr_character_range] at h
        cases hg : input.get? p with
        | none => simp only [hg] at h; cases h
        | some c =>
          simp only [hg] at h
          split at h
          next hrange =>
            injection h with h'
            subst h'
            refine ⟨Nat.le_add_right _ _, ?_⟩
            intro n hn
            simp only [resultNodes, Option.toList_some, Option.getD_none,
              List.append_nil, List.mem_singleton] at hn
            subst hn
            exact NodeOk.mk _ _ _ _ _ (sliceList_get input p c hg).symm
              (by omega) (by simp)
          next _ => cases h
      | non_terminal name =>
        rw [run_expr_non_terminal] at h
        exact ih p (.rule name) r (by simp [taskAcc]) h
      | empty =>
        rw [run_expr_empty] at h
        injection h with h'
        subst h'
        exact ⟨Nat.le_refl p, by simp [resultNodes]⟩
    | alts as =>
      cases as with
      | nil => simp [run_alts_succ] at h
      | cons a rest =>
        simp only [run_alts_succ] at h
        cases h1 : run rules f input p (.expr a) with
        | diverge => rw [h1] at h; cases h
        | err n => rw [h1] at h; cases h
        | ok r' =>
          rw [h1] at h
          injection h with h'
          subst h'
          exact ih p (.expr a) r' (by simp [taskAcc]) h1
        | fail =>
          rw [h1] at h
          exact ih p (.alts rest) r (by simp [taskAcc]) h
    | seq elems acc =>
      cases elems with
      | nil =>
        simp only [run_seq_succ] at h
        injection h with h'
        subst h'
        refine ⟨Nat.le_refl p, ?_⟩
        intro n hn
        simp only [resultNodes, Option.toList_none, Option.getD_some,
          List.nil_append] at hn
        exact hacc n (by simpa [taskAcc] using hn)
      | cons el rest =>
        simp only [run_seq_succ] at h
        cases h1 : run rules f input p (.expr el) with
        | diverge => rw [h1] at h; cases h
        | err n => rw [h1] at h; cases h
        | fail => rw [h1] at h; cases h
        | ok r' =>
          rw [h1] at h
          obtain ⟨hp1, hn1⟩ := ih p (.expr el) r' (by simp [taskAcc]) h1
          have haccok : ∀ n ∈ taskAcc (.seq rest (acc ++ resultNodes r')),
              NodeOk input n := by
            intro n hn
            simp only [taskAcc, List.mem_append] at hn
            rcases hn with hn | hn
            · exact hacc n (by simpa [taskAcc] using hn)
            · exact hn1 n hn
          obtain ⟨hp2, hn2⟩ := ih r'.position
            (.seq rest (acc ++ resultNodes r')) r haccok h
          exact ⟨Nat.le_trans hp1 hp2, hn2⟩
    | reps mn mx el acc count =>
      rw [run_reps_succ] at h
      split at h
      next _ =>
        cases h1 : run rules f input p (.expr el) with
        | diverge => rw [h1] at h; cases h
        | err n => rw [h1] at h; cases h
        | fail =>
          simp only [h1] at h
          split at h
          next _ => cases h
          next _ =>
            injection h with h'
            subst h'
            refine ⟨Nat.le_refl p, ?_⟩
            intro n hn
            simp only [resultNodes, Option.toList_none, Option.getD_some,
              List.nil_append] at hn
            exact hacc n (by simpa [taskAcc] using hn)
        | ok r' =>
          simp only [h1] at h
          obtain ⟨hp1, hn1⟩ := ih p (.expr el) r' (by simp [taskAcc]) h1
          have haccok : ∀ n ∈
              taskAcc (.reps mn mx el (acc ++ resultNodes r') (count + 1)),
              NodeOk input n := by
            intro n hn
            simp only [taskAcc, List.mem_append] at hn
            rcases hn with hn | hn
            · exact hacc n (by simpa [taskAcc] using hn)
            · exact hn1 n hn
          obtain ⟨hp2, hn2⟩ := ih r'.position
            (.reps mn mx el (acc ++ resultNodes r') (count + 1)) r haccok h
          exact ⟨Nat.le_trans hp1 hp2, hn2⟩
      next _ =>
        split at h
        next _ => cases h
        next _ =>
          injection h with h'
          subst h'
          refine ⟨Nat.le_refl p, ?_⟩
          intro n hn
          simp only [resultNodes, Option.toList_none, Option.getD_some,
            List.nil_append] at hn
          exact hacc n (by simpa [taskAcc] using hn)

/-- C8: every Parse Node anywhere in a successful top-level match result —
the root and every descendant — satisfies `value = input[start:end]` and
`start ≤ end`. -/
theorem parse_success_nodes_ok (g : Grammar) (fuel : Nat) (input : List Char)
    (node : ParseNode) (h : parse g fuel input = .success node) :
    NodeOk input node := by
  unfold parse at h
  cases hrun : run g.rules fuel input 0 (.rule g.startRule) with
  | diverge => rw [hrun] at h; cases h
  | err n => rw [hrun] at h; cases h
  | fail => rw [hrun] at h; cases h
  | ok r =>
    simp only [hrun] at h
    obtain ⟨-, hnodes⟩ := run_nodes_ok g.rules input fuel 0
      (.rule g.startRule) r (by simp [taskAcc]) hrun
    split at h
    next => cases h
    next =>
      cases hnode : r.node with
      | none => simp only [hnode] at h; cases h
      | some nd =>
        simp only [hnode] at h
        injection h with h'
        subst h'
        exact hnodes nd (by simp [resultNodes, hnode])

/-- C8 witness: the root node of a successful concrete parse satisfies the
slice invariant. -/
theorem parse_success_nodes_ok_witness :
    parse ⟨[("a", .terminal ['x'])], "a"⟩ 10 ['x'] =
      .success (.mk "a" ['x'] 0 1 []) ∧
    NodeOk ['x'] (.mk "a" ['x'] 0 1 []) :=
  ⟨rfl,
    parse_success_nodes_ok ⟨[("a", .terminal ['x'])], "a"⟩ 10 ['x']
      (.mk "a" ['x'] 0 1 []) rfl⟩

end EBNF
